import Mathlib

/-! # Protein matching by longest common subsequence (`project3.hh`)

A shallow embedding of the four algorithms of `project3.hh` and the proofs of
their documented properties.

Modelling conventions.

* A `std::string` is the list of its characters (`Str`); a
  `ProteinVector` is the list of its records, every pointer in it valid.
* A C++ `for (i = lo; i < hi; i++)` loop is `for_loop body (hi - lo) lo`: the
  body runs once for each value of the counter, threading the loop state.
* Every array, vector and string access is checked: an access outside the
  object, or a read of a cell or variable that was never written, is undefined
  behaviour in C++ and is a `Fault` here. A function of the program returns
  `Outcome _`: `.returned v` means the call ran without such an access and
  returned `v`, `.undefined f` that it left defined behaviour (the C++ program
  has no return value then, and nothing is signalled to the caller).
* `int` is 32 bits wide. Table entries, scores and indices are bounded by the
  length of a string, so they are exact as long as a string has fewer than
  `2^31` characters, which is assumed throughout. The one place where the
  width of `int` matters for inputs of ordinary size is
  `int n = pow(2, sequence.size())`: from 31 characters on the value does not
  fit, and the conversion is undefined behaviour, a `Fault` like the others
  (`double_to_int`).
-/

namespace Project3

open scoped List

/-! ## Data model -/

/-- A `std::string`. -/
abbrev Str := List Char

/-- The record `struct Protein`. -/
structure Protein where
  description : Str
  sequence : Str
deriving DecidableEq

/-- The type `ProteinVector`, a vector of (valid) pointers to records. -/
abbrev ProteinVector := List Protein

/-- The ways a call can leave defined behaviour. -/
inductive Fault where
  /-- An index at or past the end of a table, vector or string. -/
  | out_of_bounds
  /-- A read of a table cell or local variable that was never assigned. -/
  | uninitialised
  /-- A conversion of a floating-point value to an integer type that cannot
  hold it. -/
  | conversion_out_of_range
deriving DecidableEq

/-- What a call does: it returns a value, or it leaves defined behaviour. -/
inductive Outcome (α : Type) where
  /-- The call ran within defined behaviour and returned `value`. -/
  | returned (value : α)
  /-- The call performed the undefined access `fault`. -/
  | undefined (fault : Fault)
deriving DecidableEq

/-- Sequencing: a fault ends the run. -/
def Outcome.bind {α β : Type} (x : Outcome α) (f : α → Outcome β) : Outcome β :=
  match x with
  | .returned v => f v
  | .undefined e => .undefined e

instance : Monad Outcome where
  pure := Outcome.returned
  bind := Outcome.bind

/-- The element `v[i]` of a vector or string, checked. -/
def vec_at {α : Type} (v : List α) (i : Nat) : Outcome α :=
  match v[i]? with
  | some x => .returned x
  | none => .undefined .out_of_bounds

/-- The loop `for (i = start; i < start + count; i++) state = body(i, state)`,
stopping at the first fault. -/
def for_loop {σ : Type} (body : Nat → σ → Outcome σ) : Nat → Nat → σ → Outcome σ
  | 0, _, s => .returned s
  | count + 1, i, s =>
    match body i s with
    | .returned s1 => for_loop body count (i + 1) s1
    | .undefined e => .undefined e

/-! ## The DP table -/

/-- The automatic array `int D[rows][cols]`; a cell holds `none` until it is
first assigned. -/
structure Table where
  rows : Nat
  cols : Nat
  cell : Nat → Nat → Option Int

/-- The declaration `int D[rows][cols]`: no cell is initialised. -/
def Table.alloc (rows cols : Nat) : Table :=
  { rows := rows, cols := cols, cell := fun _ _ => none }

/-- The assignment `D[i][j] = v`. -/
def Table.write (D : Table) (i j : Nat) (v : Int) : Outcome Table :=
  if i < D.rows ∧ j < D.cols then
    .returned { D with cell := fun r c => if r = i ∧ c = j then some v else D.cell r c }
  else .undefined .out_of_bounds

/-- The read `D[i][j]`. -/
def Table.read (D : Table) (i j : Nat) : Outcome Int :=
  if i < D.rows ∧ j < D.cols then
    match D.cell i j with
    | some v => .returned v
    | none => .undefined .uninitialised
  else .undefined .out_of_bounds

/-- The body of the inner loop of lines 102-110: the cell `D[i][j]` from its
three neighbours. -/
def dp_cell (string1 string2 : Str) (i j : Nat) (D : Table) : Outcome Table := do
  let up ← D.read (i - 1) j
  let left ← D.read i (j - 1)
  let diag ← D.read (i - 1) (j - 1)
  let c1 ← vec_at string1 (i - 1)
  let c2 ← vec_at string2 (j - 1)
  let diag := if c1 = c2 then diag + 1 else diag
  D.write i j (max up (max left diag))

/-- Lines 91-111 of `dynamicprogramming_longest_common_subsequence`: the table
after the three loops. -/
def dp_table (string1 string2 : Str) : Outcome Table := do
  let n := string1.length
  let m := string2.length
  let D := Table.alloc (n + 1) (m + 1)
  let D ← for_loop (fun i D => D.write i 0 0) (n + 1) 0 D
  let D ← for_loop (fun j D => D.write 0 j 0) (m + 1) 0 D
  for_loop (fun i D => for_loop (dp_cell string1 string2 i) m 1 D) n 1 D

/-- The function `dynamicprogramming_longest_common_subsequence`: the cell
`D[n][m]` of the filled table. -/
def dynamicprogramming_longest_common_subsequence (string1 string2 : Str) : Outcome Int := do
  let D ← dp_table string1 string2
  D.read string1.length string2.length

/-! ## Exhaustive search -/

/-- The greatest value of `int`. -/
def INT_MAX : Int := 2147483647

/-- The conversion of the `double` result of `pow` to `int`. A value that fits
is converted exactly. For a value that does not fit the conversion is undefined
behaviour: the language promises no result, and builds of the program differ
in what they do (the x86-64 conversion instruction leaves the least `int`, so
that the loop bounded by it never runs; an optimising build need not return). -/
def double_to_int (x : Nat) : Outcome Int :=
  if (x : Int) ≤ INT_MAX then .returned (x : Int) else .undefined .conversion_out_of_range

/-- Lines 124-126 of `generate_all_subsequences`: the body of the inner loop. -/
def subsequence_step (sequence : Str) (bits j : Nat) (subsequence : Str) : Outcome Str :=
  if (bits >>> j) &&& 1 = 1 then do
    let c ← vec_at sequence j
    pure (subsequence ++ [c])
  else pure subsequence

/-- Lines 122-127 of `generate_all_subsequences`: the subsequence selected by
the bits of `bits`. -/
def subsequence_of_bits (sequence : Str) (bits : Nat) : Outcome Str :=
  for_loop (subsequence_step sequence bits) sequence.length 0 []

/-- Lines 122-128 of `generate_all_subsequences`: the body of the outer loop. -/
def generate_step (sequence : Str) (bits : Nat) (subsequences : List Str) : Outcome (List Str) := do
  let subsequence ← subsequence_of_bits sequence bits
  pure (subsequences ++ [subsequence])

/-- The function `generate_all_subsequences`. The loop `bits < n` runs `n`
times when `n` is positive and not at all otherwise. -/
def generate_all_subsequences (sequence : Str) : Outcome (List Str) := do
  let n ← double_to_int (2 ^ sequence.length)
  for_loop (generate_step sequence) n.toNat 0 []

/-- The body of the inner loop of lines 149-153. The comparison
`size() > best_score` is made on unsigned values in C++; `best_score` is never
negative (it is 0 or a size), so it is the comparison of the two numbers. -/
def exhaustive_step (all_subseqs1 all_subseqs2 : List Str) (i j : Nat) (best_score : Int) :
    Outcome Int := do
  let x ← vec_at all_subseqs1 i
  let y ← vec_at all_subseqs2 j
  if x = y ∧ (x.length : Int) > best_score then pure (x.length : Int) else pure best_score

/-- The function `exhaustive_longest_common_subsequence`. -/
def exhaustive_longest_common_subsequence (string1 string2 : Str) : Outcome Int := do
  let all_subseqs1 ← generate_all_subsequences string1
  let all_subseqs2 ← generate_all_subsequences string2
  for_loop (fun i best_score =>
      for_loop (exhaustive_step all_subseqs1 all_subseqs2 i) all_subseqs2.length 0 best_score)
    all_subseqs1.length 0 0

/-! ## Best match -/

/-- The state of a best-match scan: `best_score` and `best_i`, the latter
`none` while the variable is unassigned. -/
abbrev Scan := Int × Option Nat

/-- The loop body shared by lines 165-171 and 183-189, for the scoring
function `engine`. -/
def best_match_step (engine : Str → Str → Outcome Int) (proteins : ProteinVector)
    (string1 : Str) (i : Nat) (st : Scan) : Outcome Scan := do
  let p ← vec_at proteins i
  let score ← engine p.sequence string1
  if score > st.1 then pure (score, some i) else pure st

/-- Lines 163-171 of `exhaustive_best_match`: `best_i` is declared without an
initial value. -/
def exhaustive_best_match_scan (proteins : ProteinVector) (string1 : Str) : Outcome Scan :=
  for_loop (best_match_step exhaustive_longest_common_subsequence proteins string1)
    proteins.length 0 (0, none)

/-- The expression `proteins[best_i]` after a scan. -/
def select (proteins : ProteinVector) (st : Scan) : Outcome Protein :=
  match st.2 with
  | none => .undefined .uninitialised
  | some k => vec_at proteins k

/-- The function `exhaustive_best_match`. -/
def exhaustive_best_match (proteins : ProteinVector) (string1 : Str) : Outcome Protein := do
  let st ← exhaustive_best_match_scan proteins string1
  select proteins st

/-- Lines 179-189 of `dynamicprogramming_best_match`: `best_i` starts at 0. -/
def dynamicprogramming_best_match_scan (proteins : ProteinVector) (string1 : Str) :
    Outcome Scan :=
  for_loop (best_match_step dynamicprogramming_longest_common_subsequence proteins string1)
    proteins.length 0 (0, some 0)

/-- The function `dynamicprogramming_best_match`. -/
def dynamicprogramming_best_match (proteins : ProteinVector) (string1 : Str) :
    Outcome Protein := do
  let st ← dynamicprogramming_best_match_scan proteins string1
  select proteins st

/-! ## Closed forms and loop invariants

The functions and predicates below are not part of the program: they say what
its loops compute and what they maintain, and the proofs relate the program
to them. -/

/-- The value the recurrence of lines 103-109 assigns to cell `(i, j)`, as a
function of the two strings: row 0 and column 0 are 0, every other cell is the
three-way maximum of its neighbours. -/
def lcs_cell (string1 string2 : Str) : Nat → Nat → Int
  | 0, _ => 0
  | _ + 1, 0 => 0
  | i + 1, j + 1 =>
    max (lcs_cell string1 string2 i (j + 1))
      (max (lcs_cell string1 string2 (i + 1) j)
        (if string1[i]? = string2[j]? then lcs_cell string1 string2 i j + 1
         else lcs_cell string1 string2 i j))
termination_by i j => (i, j)

/-- The characters of `sequence` at the positions where `bits` has a set bit,
bit 0 standing for the first character: what lines 122-127 compute, as a recursion on the
string. -/
def masked : Str → Nat → Str
  | [], _ => []
  | c :: cs, bits => if bits % 2 = 1 then c :: masked cs (bits / 2) else masked cs (bits / 2)

/-- The cells assigned once the main loop has finished the rows below `i` and,
in row `i`, the columns below `j`: each holds its `lcs_cell` value. -/
def Filled (string1 string2 : Str) (i j : Nat) (D : Table) : Prop :=
  D.rows = string1.length + 1 ∧ D.cols = string2.length + 1 ∧
  ∀ r c, r ≤ string1.length → c ≤ string2.length →
    (r = 0 ∨ c = 0 ∨ r < i ∨ (r = i ∧ c < j)) → D.cell r c = some (lcs_cell string1 string2 r c)

/-- What the scan has established after the rows below `i` and, in row `i`,
the columns below `j`: `best` is 0 or the length of a common entry, and no
pair of equal entries compared so far is longer than `best`. -/
def Scanned (L1 L2 : List Str) (i j : Nat) (best : Int) : Prop :=
  (best = 0 ∨ ∃ x, x ∈ L1 ∧ x ∈ L2 ∧ (x.length : Int) = best) ∧
  (∀ (r c : Nat) (x : Str), r < i → L1[r]? = some x → L2[c]? = some x →
    (x.length : Int) ≤ best) ∧
  (∀ (c : Nat) (x : Str), c < j → L1[i]? = some x → L2[c]? = some x → (x.length : Int) ≤ best)

/-- What a best-match scan has established after the records below `k`, for
the scores `score` and the initial content `init` of `best_i`: either no
record scored above 0 and the state is the initial one, or the state names the
first record with the greatest score so far, which is positive. -/
def Best (score : Nat → Int) (init : Option Nat) (k : Nat) (st : Scan) : Prop :=
  (st.1 = 0 ∧ st.2 = init ∧ ∀ r, r < k → score r ≤ 0) ∨
  (∃ i, i < k ∧ st.2 = some i ∧ score i = st.1 ∧ 0 < st.1 ∧
    (∀ r, r < i → score r < st.1) ∧ ∀ r, r < k → score r ≤ st.1)

/-- The score of record `r` under the DP engine, 0 past the end of the collection. -/
def dp_score (proteins : ProteinVector) (q : Str) (r : Nat) : Int :=
  match proteins[r]? with
  | some p => lcs_cell p.sequence q p.sequence.length q.length
  | none => 0

/-- Follows the words of the specification (section 4.1), not the code: row 0
and column 0 are zero; for the other cells, `D[i][j] = D[i-1][j-1] + 1` if
`a[i-1] == b[j-1]`, else `D[i][j] = max(D[i-1][j], D[i][j-1])`. -/
def spec_lcs_table (a b : Str) : Nat → Nat → Int
  | 0, _ => 0
  | _ + 1, 0 => 0
  | i + 1, j + 1 =>
    if a[i]? = b[j]? then spec_lcs_table a b i j + 1
    else max (spec_lcs_table a b i (j + 1)) (spec_lcs_table a b (i + 1) j)
termination_by i j => (i, j)

/-- Follows the words of the specification (section 4.2), not the code: the
characters `s[j]` at the positions `j` where bit `j` of `mask` is set, in
increasing order of `j`. -/
def chars_at_set_bits (s : Str) (mask : Nat) : Str :=
  (List.range s.length).filterMap (fun j => if mask.testBit j then s[j]? else none)

/-! ## Running a program: sequencing and loops -/

@[simp]
theorem Outcome.pure_eq {α : Type} (v : α) : (pure v : Outcome α) = .returned v := rfl

@[simp]
theorem Outcome.returned_bind {α β : Type} (v : α) (f : α → Outcome β) :
    (Outcome.returned v >>= f) = f v := rfl

@[simp]
theorem Outcome.undefined_bind {α β : Type} (e : Fault) (f : α → Outcome β) :
    (Outcome.undefined e >>= f) = .undefined e := rfl

theorem vec_at_of_lt {α : Type} (v : List α) (i : Nat) (h : i < v.length) :
    vec_at v i = .returned v[i] := by
  simp [vec_at, List.getElem?_eq_getElem h]

theorem vec_at_of_le {α : Type} (v : List α) (i : Nat) (h : v.length ≤ i) :
    vec_at v i = .undefined .out_of_bounds := by
  simp [vec_at, List.getElem?_eq_none h]

/-- Loop invariant rule: when `P` holds on entry and every iteration whose
counter is in range runs without fault and re-establishes `P`, the loop runs
without fault and `P` holds on exit. -/
theorem for_loop_inv {σ : Type} (body : Nat → σ → Outcome σ) (P : Nat → σ → Prop) :
    ∀ (count i : Nat) (s : σ), P i s →
      (∀ j t, i ≤ j → j < i + count → P j t → ∃ t1, body j t = .returned t1 ∧ P (j + 1) t1) →
      ∃ s1, for_loop body count i s = .returned s1 ∧ P (i + count) s1
  | 0, i, s, h0, _ => ⟨s, rfl, by simpa using h0⟩
  | count + 1, i, s, h0, hstep => by
    obtain ⟨t1, hb, hP⟩ := hstep i s (Nat.le_refl i) (by omega) h0
    obtain ⟨s1, hl, hQ⟩ := for_loop_inv body P count (i + 1) t1 hP
      (fun j t hij hj hPj => hstep j t (by omega) (by omega) hPj)
    refine ⟨s1, ?_, ?_⟩
    · simp [for_loop, hb, hl]
    · have : i + (count + 1) = i + 1 + count := by omega
      rw [this]; exact hQ

/-! ## The DP table is filled with `lcs_cell` -/

theorem lcs_cell_zero_left (a b : Str) (j : Nat) : lcs_cell a b 0 j = 0 := by
  simp [lcs_cell]

theorem lcs_cell_zero_right (a b : Str) (i : Nat) : lcs_cell a b i 0 = 0 := by
  cases i <;> simp [lcs_cell]

theorem lcs_cell_succ (a b : Str) (i j : Nat) :
    lcs_cell a b (i + 1) (j + 1) =
      max (lcs_cell a b i (j + 1))
        (max (lcs_cell a b (i + 1) j)
          (if a[i]? = b[j]? then lcs_cell a b i j + 1 else lcs_cell a b i j)) := by
  rw [lcs_cell]

theorem Table.read_of_cell (D : Table) (i j : Nat) (v : Int) (hi : i < D.rows) (hj : j < D.cols)
    (h : D.cell i j = some v) : D.read i j = .returned v := by
  simp [Table.read, hi, hj, h]

theorem Table.write_of_lt (D : Table) (i j : Nat) (v : Int) (hi : i < D.rows) (hj : j < D.cols) :
    D.write i j v = .returned
      { D with cell := fun r c => if r = i ∧ c = j then some v else D.cell r c } := by
  simp [Table.write, hi, hj]

/-- One cell of the main loop: with the earlier cells filled, the body runs
without fault and fills cell `(i, j)`. -/
theorem dp_cell_filled (a b : Str) (i j : Nat) (D : Table) (hi : 1 ≤ i) (hin : i ≤ a.length)
    (hj : 1 ≤ j) (hjm : j ≤ b.length) (h : Filled a b i j D) :
    ∃ D1, dp_cell a b i j D = .returned D1 ∧ Filled a b i (j + 1) D1 := by
  obtain ⟨hr, hc, hcell⟩ := h
  obtain ⟨i, rfl⟩ : ∃ k, i = k + 1 := ⟨i - 1, by omega⟩
  obtain ⟨j, rfl⟩ : ∃ k, j = k + 1 := ⟨j - 1, by omega⟩
  have hup := Table.read_of_cell D i (j + 1) _ (by omega) (by omega)
    (hcell i (j + 1) (by omega) (by omega) (by omega))
  have hleft := Table.read_of_cell D (i + 1) j _ (by omega) (by omega)
    (hcell (i + 1) j (by omega) (by omega) (by omega))
  have hdiag := Table.read_of_cell D i j _ (by omega) (by omega)
    (hcell i j (by omega) (by omega) (by omega))
  have ha : i < a.length := by omega
  have hb : j < b.length := by omega
  have hrun : dp_cell a b (i + 1) (j + 1) D = .returned
      { D with cell := fun r c =>
          if r = i + 1 ∧ c = j + 1 then some (lcs_cell a b (i + 1) (j + 1)) else D.cell r c } := by
    simp only [dp_cell, Nat.add_sub_cancel, hup, hleft, hdiag, vec_at_of_lt a i ha,
      vec_at_of_lt b j hb, Outcome.returned_bind, Table.write]
    rw [if_pos (by omega)]
    simp [lcs_cell_succ, List.getElem?_eq_getElem ha, List.getElem?_eq_getElem hb]
  refine ⟨_, hrun, hr, hc, ?_⟩
  intro r c hrn hcm hrc
  by_cases hnew : r = i + 1 ∧ c = j + 1
  · obtain ⟨rfl, rfl⟩ := hnew
    simp
  · simp only [hnew, if_false]
    exact hcell r c hrn hcm (by omega)

/-- A row of the main loop: the inner loop runs without fault and fills row `i`. -/
theorem dp_row_filled (a b : Str) (i : Nat) (D : Table) (hi : 1 ≤ i) (hin : i ≤ a.length)
    (h : Filled a b i 1 D) :
    ∃ D1, for_loop (dp_cell a b i) b.length 1 D = .returned D1 ∧ Filled a b (i + 1) 1 D1 := by
  obtain ⟨D1, hrun, hr, hc, hcell⟩ := for_loop_inv (dp_cell a b i) (fun j D => Filled a b i j D)
    b.length 1 D h (fun j t h1 hj ht => dp_cell_filled a b i j t hi hin h1 (by omega) ht)
  refine ⟨D1, hrun, hr, hc, ?_⟩
  intro r c hrn hcm hrc
  exact hcell r c hrn hcm (by omega)

/-- The first loop (lines 95-97) assigns column 0. -/
theorem dp_init_column (n m : Nat) :
    ∃ D, for_loop (fun i D => Table.write D i 0 0) (n + 1) 0 (Table.alloc (n + 1) (m + 1))
        = .returned D ∧
      D.rows = n + 1 ∧ D.cols = m + 1 ∧ ∀ r, r ≤ n → D.cell r 0 = some 0 := by
  obtain ⟨D, hrun, hr, hc, hcell⟩ := for_loop_inv (fun i D => Table.write D i 0 0)
    (fun k D => D.rows = n + 1 ∧ D.cols = m + 1 ∧ ∀ r, r < k → D.cell r 0 = some 0)
    (n + 1) 0 (Table.alloc (n + 1) (m + 1)) ⟨rfl, rfl, fun r hr => absurd hr (Nat.not_lt_zero r)⟩
    (by
      rintro j t - hj ⟨hr, hc, hcell⟩
      refine ⟨_, Table.write_of_lt t j 0 0 (by omega) (by omega), hr, hc, ?_⟩
      intro r hrj
      by_cases h : r = j
      · simp [h]
      · simp only [h, false_and, if_false]
        exact hcell r (by omega))
  exact ⟨D, hrun, hr, hc, fun r hrn => hcell r (by omega)⟩

/-- The second loop (lines 98-100) assigns row 0 and keeps column 0. -/
theorem dp_init_row (n m : Nat) (D0 : Table) (hr0 : D0.rows = n + 1) (hc0 : D0.cols = m + 1)
    (hcol : ∀ r, r ≤ n → D0.cell r 0 = some 0) :
    ∃ D, for_loop (fun j D => Table.write D 0 j 0) (m + 1) 0 D0 = .returned D ∧
      D.rows = n + 1 ∧ D.cols = m + 1 ∧ (∀ r, r ≤ n → D.cell r 0 = some 0) ∧
      ∀ c, c ≤ m → D.cell 0 c = some 0 := by
  obtain ⟨D, hrun, hr, hc, hcol1, hrow⟩ := for_loop_inv (fun j D => Table.write D 0 j 0)
    (fun k D => D.rows = n + 1 ∧ D.cols = m + 1 ∧ (∀ r, r ≤ n → D.cell r 0 = some 0) ∧
      ∀ c, c < k → D.cell 0 c = some 0)
    (m + 1) 0 D0 ⟨hr0, hc0, hcol, fun c hc => absurd hc (Nat.not_lt_zero c)⟩
    (by
      rintro j t - hj ⟨hr, hc, hcol1, hrow⟩
      refine ⟨_, Table.write_of_lt t 0 j 0 (by omega) (by omega), hr, hc, ?_, ?_⟩
      · intro r hrn
        by_cases h : r = 0 ∧ 0 = j
        · simp [h]
        · simp only [h, if_false]
          exact hcol1 r hrn
      · intro c hcj
        by_cases h : c = j
        · simp [h]
        · simp only [h, and_false, if_false]
          exact hrow c (by omega))
  exact ⟨D, hrun, hr, hc, hcol1, fun c hcm => hrow c (by omega)⟩

/-- The three loops run without fault and leave every cell of the table
holding its `lcs_cell` value. -/
theorem dp_table_filled (a b : Str) :
    ∃ D, dp_table a b = .returned D ∧ D.rows = a.length + 1 ∧ D.cols = b.length + 1 ∧
      ∀ r c, r ≤ a.length → c ≤ b.length → D.cell r c = some (lcs_cell a b r c) := by
  obtain ⟨D1, hrun1, hr1, hc1, hcol1⟩ := dp_init_column a.length b.length
  obtain ⟨D2, hrun2, hr2, hc2, hcol2, hrow2⟩ := dp_init_row a.length b.length D1 hr1 hc1 hcol1
  have hF : Filled a b 1 1 D2 := by
    refine ⟨hr2, hc2, ?_⟩
    intro r c hrn hcm hrc
    have h0 : r = 0 ∨ c = 0 := by omega
    rcases h0 with rfl | rfl
    · rw [lcs_cell_zero_left]; exact hrow2 c hcm
    · rw [lcs_cell_zero_right]; exact hcol2 r hrn
  obtain ⟨D3, hrun3, hr3, hc3, hcell3⟩ := for_loop_inv
    (fun i D => for_loop (dp_cell a b i) b.length 1 D) (fun i D => Filled a b i 1 D)
    a.length 1 D2 hF (fun i t h1 hi ht => dp_row_filled a b i t h1 (by omega) ht)
  refine ⟨D3, ?_, hr3, hc3, fun r c hrn hcm => hcell3 r c hrn hcm (by omega)⟩
  simp only [dp_table, hrun1, hrun2, Outcome.returned_bind]
  exact hrun3

/-- The DP function runs without fault and returns the last cell of the table. -/
theorem dp_eq_lcs_cell (a b : Str) :
    dynamicprogramming_longest_common_subsequence a b
      = .returned (lcs_cell a b a.length b.length) := by
  obtain ⟨D, hrun, hr, hc, hcell⟩ := dp_table_filled a b
  simp only [dynamicprogramming_longest_common_subsequence, hrun, Outcome.returned_bind]
  exact Table.read_of_cell D _ _ _ (by omega) (by omega)
    (hcell _ _ (Nat.le_refl _) (Nat.le_refl _))

/-! ## `lcs_cell` is the length of a longest common subsequence

A subsequence of a string (characters deleted, order kept) is a sublist of its
list of characters, `List.Sublist`, written `x <+ s`. -/

theorem sublist_append_singleton {α : Type} (z l : List α) (c : α) :
    z <+ l ++ [c] ↔ z <+ l ∨ ∃ z1, z = z1 ++ [c] ∧ z1 <+ l := by
  rw [List.sublist_append_iff]
  constructor
  · rintro ⟨l1, l2, rfl, h1, h2⟩
    rcases List.sublist_singleton.1 h2 with rfl | rfl
    · left; simpa using h1
    · right; exact ⟨l1, rfl, h1⟩
  · rintro (h | ⟨z1, rfl, h1⟩)
    · exact ⟨z, [], by simp, h, List.nil_sublist _⟩
    · exact ⟨z1, [c], rfl, h1, List.Sublist.refl _⟩

theorem take_succ_of_lt {α : Type} (l : List α) (i : Nat) (h : i < l.length) :
    l.take (i + 1) = l.take i ++ [l[i]] := by
  rw [List.take_succ, List.getElem?_eq_getElem h]; rfl

/-- Cell `(i, j)` is the length of a longest common subsequence of the first
`i` characters of `a` and the first `j` characters of `b`. -/
theorem lcs_cell_spec (a b : Str) : ∀ i j, i ≤ a.length → j ≤ b.length →
    (∃ z, z <+ a.take i ∧ z <+ b.take j ∧ (z.length : Int) = lcs_cell a b i j) ∧
    (∀ z, z <+ a.take i → z <+ b.take j → (z.length : Int) ≤ lcs_cell a b i j) := by
  intro i
  induction i with
  | zero =>
    intro j _ _
    refine ⟨⟨[], by simp, by simp, by simp [lcs_cell_zero_left]⟩, ?_⟩
    intro z hz _
    have : z = [] := by simpa using hz
    simp [this, lcs_cell_zero_left]
  | succ i ihi =>
    intro j
    induction j with
    | zero =>
      intro _ _
      refine ⟨⟨[], by simp, by simp, by simp [lcs_cell_zero_right]⟩, ?_⟩
      intro z _ hz
      have : z = [] := by simpa using hz
      simp [this, lcs_cell_zero_right]
    | succ j ihj =>
      intro hi hj
      have ha : i < a.length := by omega
      have hb : j < b.length := by omega
      obtain ⟨⟨zu, hzu1, hzu2, hzu⟩, hup⟩ := ihi (j + 1) (by omega) hj
      obtain ⟨⟨zl, hzl1, hzl2, hzl⟩, hleft⟩ := ihj hi (by omega)
      obtain ⟨⟨zd, hzd1, hzd2, hzd⟩, hdiag⟩ := ihi j (by omega) (by omega)
      have hta := take_succ_of_lt a i ha
      have htb := take_succ_of_lt b j hb
      have hsa : a.take i <+ a.take (i + 1) := by rw [hta]; exact List.sublist_append_left _ _
      have hsb : b.take j <+ b.take (j + 1) := by rw [htb]; exact List.sublist_append_left _ _
      rw [lcs_cell_succ, List.getElem?_eq_getElem ha, List.getElem?_eq_getElem hb]
      constructor
      · by_cases hc : a[i] = b[j]
        · simp only [hc, if_true]
          rcases max_choice (lcs_cell a b i (j + 1))
              (max (lcs_cell a b (i + 1) j) (lcs_cell a b i j + 1)) with h | h
          · exact ⟨zu, hzu1.trans hsa, hzu2, by rw [h]; exact hzu⟩
          · rcases max_choice (lcs_cell a b (i + 1) j) (lcs_cell a b i j + 1) with h1 | h1
            · exact ⟨zl, hzl1, hzl2.trans hsb, by rw [h, h1]; exact hzl⟩
            · refine ⟨zd ++ [a[i]], ?_, ?_, ?_⟩
              · rw [hta]; exact List.Sublist.append hzd1 (List.Sublist.refl _)
              · rw [htb, hc]; exact List.Sublist.append hzd2 (List.Sublist.refl _)
              · rw [h, h1, ← hzd]; simp
        · have hne : ¬ (some a[i] = some b[j]) := by simpa using hc
          simp only [hne, if_false]
          rcases max_choice (lcs_cell a b i (j + 1))
              (max (lcs_cell a b (i + 1) j) (lcs_cell a b i j)) with h | h
          · exact ⟨zu, hzu1.trans hsa, hzu2, by rw [h]; exact hzu⟩
          · rcases max_choice (lcs_cell a b (i + 1) j) (lcs_cell a b i j) with h1 | h1
            · exact ⟨zl, hzl1, hzl2.trans hsb, by rw [h, h1]; exact hzl⟩
            · exact ⟨zd, hzd1.trans hsa, hzd2.trans hsb, by rw [h, h1]; exact hzd⟩
      · intro z hza hzb
        have hza1 := hza
        have hzb1 := hzb
        rw [hta, sublist_append_singleton] at hza1
        rw [htb, sublist_append_singleton] at hzb1
        rcases hza1 with h1 | ⟨z1, rfl, h1⟩
        · exact le_max_of_le_left (hup z h1 hzb)
        · rcases hzb1 with h2 | ⟨z2, he, h2⟩
          · exact le_max_of_le_right (le_max_of_le_left (hleft _ hza h2))
          · obtain ⟨rfl, hcc⟩ := List.append_inj' he rfl
            have hc : a[i] = b[j] := by simpa using hcc
            have hd := hdiag z1 h1 h2
            refine le_max_of_le_right (le_max_of_le_right ?_)
            simp only [hc, if_true, List.length_append, List.length_singleton]
            push_cast
            omega

/-! ## The enumeration of subsequences -/

/-- The inner loop of `generate_all_subsequences`, started at position `j` with
the characters before `j` already handled, appends the masked rest. -/
theorem subsequence_loop (bits : Nat) : ∀ (rest pre acc : Str),
    for_loop (subsequence_step (pre ++ rest) bits) rest.length pre.length acc
      = .returned (acc ++ masked rest (bits >>> pre.length))
  | [], pre, acc => by simp [for_loop, masked]
  | c :: cs, pre, acc => by
    have ih := subsequence_loop bits cs (pre ++ [c])
    simp only [List.append_assoc, List.singleton_append, List.length_append,
      List.length_singleton] at ih
    have hat : vec_at (pre ++ c :: cs) pre.length = .returned c := by
      simp [vec_at, List.getElem?_append_right (Nat.le_refl _)]
    have hshift : bits >>> (pre.length + 1) = (bits >>> pre.length) / 2 := by
      rw [Nat.shiftRight_succ]
    simp only [List.length_cons, for_loop, masked, subsequence_step, Nat.and_one_is_mod]
    by_cases hbit : bits >>> pre.length % 2 = 1
    · simp only [hbit, if_true, hat, Outcome.returned_bind, Outcome.pure_eq]
      rw [ih (acc ++ [c]), hshift]; simp
    · simp only [hbit, if_false, Outcome.pure_eq]
      rw [ih acc, hshift]

/-- The inner loop runs without fault and returns the masked string. -/
theorem subsequence_of_bits_eq (s : Str) (bits : Nat) :
    subsequence_of_bits s bits = .returned (masked s bits) := by
  have := subsequence_loop bits s [] []
  simpa [subsequence_of_bits] using this

/-- A loop that appends one computed entry per iteration builds the list of
the entries. -/
theorem generate_loop (s : Str) : ∀ (count i : Nat) (acc : List Str),
    for_loop (generate_step s) count i acc
      = .returned (acc ++ (List.range' i count).map (masked s))
  | 0, i, acc => by simp [for_loop]
  | count + 1, i, acc => by
    simp only [for_loop, generate_step, subsequence_of_bits_eq, Outcome.returned_bind,
      Outcome.pure_eq]
    rw [generate_loop s count (i + 1) (acc ++ [masked s i])]
    simp [List.range'_succ]

/-- The enumeration, in closed form: every mask below `2^len` in increasing
order when `2^len` fits an `int`; otherwise the call is undefined. -/
theorem generate_all_subsequences_eq (s : Str) :
    generate_all_subsequences s =
      if s.length ≤ 30 then .returned ((List.range (2 ^ s.length)).map (masked s))
      else .undefined .conversion_out_of_range := by
  simp only [generate_all_subsequences]
  by_cases h : s.length ≤ 30
  · have hpow : (2 : Nat) ^ s.length ≤ 2 ^ 30 := Nat.pow_le_pow_right (by decide) h
    have hfit : ((2 ^ s.length : Nat) : Int) ≤ INT_MAX := by
      norm_num at hpow
      simp only [INT_MAX]; omega
    rw [double_to_int, if_pos hfit, if_pos h, Outcome.returned_bind, Int.toNat_ofNat,
      generate_loop, List.nil_append, List.range_eq_range']
  · have hpow : (2 : Nat) ^ 31 ≤ 2 ^ s.length := Nat.pow_le_pow_right (by decide) (by omega)
    have hfit : ¬ ((2 ^ s.length : Nat) : Int) ≤ INT_MAX := by
      norm_num at hpow
      simp only [INT_MAX]; omega
    rw [double_to_int, if_neg hfit, if_neg h, Outcome.undefined_bind]

/-- From 31 characters on the enumeration does not return. -/
theorem generate_all_subsequences_long (s : Str) (h : 30 < s.length) :
    generate_all_subsequences s = .undefined .conversion_out_of_range := by
  rw [generate_all_subsequences_eq, if_neg (by omega)]

theorem masked_sublist : ∀ (s : Str) (bits : Nat), masked s bits <+ s
  | [], _ => by simp [masked]
  | c :: cs, bits => by
    simp only [masked]
    split
    · exact (masked_sublist cs _).cons₂ c
    · exact (masked_sublist cs _).cons c

theorem exists_mask_of_sublist {x s : Str} (h : x <+ s) :
    ∃ bits, bits < 2 ^ s.length ∧ masked s bits = x := by
  induction h with
  | slnil => exact ⟨0, by simp, rfl⟩
  | cons c _ ih =>
    obtain ⟨bits, hlt, hm⟩ := ih
    refine ⟨2 * bits, by simp only [List.length_cons, pow_succ]; omega, ?_⟩
    have h1 : 2 * bits % 2 = 0 := by omega
    have h2 : 2 * bits / 2 = bits := by omega
    simp [masked, h1, h2, hm]
  | cons₂ c _ ih =>
    obtain ⟨bits, hlt, hm⟩ := ih
    refine ⟨2 * bits + 1, by simp only [List.length_cons, pow_succ]; omega, ?_⟩
    have h1 : (2 * bits + 1) % 2 = 1 := by omega
    have h2 : (2 * bits + 1) / 2 = bits := by omega
    simp [masked, h1, h2, hm]

/-- For a string of at most 30 characters the enumeration runs without fault,
has `2^len` entries, and its entries are exactly the subsequences. -/
theorem generate_all_subsequences_short (s : Str) (h : s.length ≤ 30) :
    ∃ subs, generate_all_subsequences s = .returned subs ∧ subs.length = 2 ^ s.length ∧
      ∀ x, x ∈ subs ↔ x <+ s := by
  refine ⟨_, by rw [generate_all_subsequences_eq, if_pos h], by simp, ?_⟩
  intro x
  simp only [List.mem_map, List.mem_range]
  constructor
  · rintro ⟨bits, _, rfl⟩
    exact masked_sublist s bits
  · intro hx
    exact exists_mask_of_sublist hx

/-! ## The cross-product scan of the exhaustive search -/

/-- One comparison of the scan. -/
theorem exhaustive_step_scanned (L1 L2 : List Str) (i j : Nat) (best : Int)
    (hi : i < L1.length) (hj : j < L2.length) (h : Scanned L1 L2 i j best) :
    ∃ best1, exhaustive_step L1 L2 i j best = .returned best1 ∧ Scanned L1 L2 i (j + 1) best1 := by
  obtain ⟨hval, hrows, hrow⟩ := h
  have hx : L1[i]? = some L1[i] := List.getElem?_eq_getElem hi
  have hy : L2[j]? = some L2[j] := List.getElem?_eq_getElem hj
  by_cases hc : L1[i] = L2[j] ∧ (L1[i].length : Int) > best
  · refine ⟨(L1[i].length : Int), ?_, ?_, ?_, ?_⟩
    · simp only [exhaustive_step, vec_at_of_lt L1 i hi, vec_at_of_lt L2 j hj,
        Outcome.returned_bind, Outcome.pure_eq]
      rw [if_pos hc]
    · right
      exact ⟨L1[i], List.getElem_mem hi, by rw [hc.1]; exact List.getElem_mem hj, rfl⟩
    · intro r c x hr h1 h2
      have := hrows r c x hr h1 h2
      omega
    · intro c x _ h1 _
      rw [hx] at h1
      cases h1
      exact le_refl _
  · refine ⟨best, ?_, hval, hrows, ?_⟩
    · simp only [exhaustive_step, vec_at_of_lt L1 i hi, vec_at_of_lt L2 j hj,
        Outcome.returned_bind, Outcome.pure_eq]
      rw [if_neg hc]
    · intro c x hcj h1 h2
      by_cases hcj1 : c = j
      · subst hcj1
        rw [hx] at h1
        rw [hy] at h2
        cases h1
        have heq : L1[i] = L2[c] := by simpa using h2.symm
        by_contra hlt
        exact hc ⟨heq, by omega⟩
      · exact hrow c x (by omega) h1 h2

/-- The two nested loops of `exhaustive_longest_common_subsequence` run without
fault; the result is 0 or the length of a common entry, and no common entry is
longer. -/
theorem exhaustive_scan (L1 L2 : List Str) :
    ∃ v, for_loop (fun i best_score =>
          for_loop (exhaustive_step L1 L2 i) L2.length 0 best_score) L1.length 0 0
        = .returned v ∧
      (v = 0 ∨ ∃ x, x ∈ L1 ∧ x ∈ L2 ∧ (x.length : Int) = v) ∧
      ∀ x, x ∈ L1 → x ∈ L2 → (x.length : Int) ≤ v := by
  obtain ⟨v, hrun, hval, hrows, -⟩ := for_loop_inv
    (fun i best_score => for_loop (exhaustive_step L1 L2 i) L2.length 0 best_score)
    (fun i best => Scanned L1 L2 i 0 best) L1.length 0 0
    ⟨Or.inl rfl, fun r c x hr => absurd hr (Nat.not_lt_zero r),
      fun c x hc => absurd hc (Nat.not_lt_zero c)⟩
    (by
      intro i best _ hi hS
      obtain ⟨best1, hrun, hval, hrows, hrow⟩ := for_loop_inv (exhaustive_step L1 L2 i)
        (fun j best => Scanned L1 L2 i j best) L2.length 0 best hS
        (fun j t _ hj ht => exhaustive_step_scanned L1 L2 i j t (by omega) (by omega) ht)
      refine ⟨best1, hrun, hval, ?_, fun c x hc => absurd hc (Nat.not_lt_zero c)⟩
      intro r c x hr h1 h2
      by_cases hri : r = i
      · subst hri
        have hc : c < L2.length := (List.getElem?_eq_some_iff.1 h2).1
        exact hrow c x (by omega) h1 h2
      · exact hrows r c x (by omega) h1 h2)
  refine ⟨v, hrun, hval, ?_⟩
  intro x h1 h2
  obtain ⟨r, hr, hxr⟩ := List.getElem_of_mem h1
  obtain ⟨c, hc, hxc⟩ := List.getElem_of_mem h2
  exact hrows r c x (by omega) (by rw [List.getElem?_eq_getElem hr, hxr])
    (by rw [List.getElem?_eq_getElem hc, hxc])

/-! ## Facts about the two scores used by several results -/

/-- The DP score is the length of a longest common subsequence. -/
theorem lcs_cell_full (a b : Str) :
    (∃ z, z <+ a ∧ z <+ b ∧ (z.length : Int) = lcs_cell a b a.length b.length) ∧
    (∀ z, z <+ a → z <+ b → (z.length : Int) ≤ lcs_cell a b a.length b.length) := by
  have h := lcs_cell_spec a b a.length b.length (Nat.le_refl _) (Nat.le_refl _)
  simpa only [List.take_length] using h

theorem lcs_cell_nonneg (a b : Str) : 0 ≤ lcs_cell a b a.length b.length := by
  obtain ⟨⟨z, -, -, hz⟩, -⟩ := lcs_cell_full a b
  omega

/-- On strings of at most 30 characters the exhaustive search runs without
fault and returns the DP score. -/
theorem exhaustive_eq_lcs_cell (a b : Str) (ha : a.length ≤ 30) (hb : b.length ≤ 30) :
    exhaustive_longest_common_subsequence a b = .returned (lcs_cell a b a.length b.length) := by
  obtain ⟨L1, hL1, -, hmem1⟩ := generate_all_subsequences_short a ha
  obtain ⟨L2, hL2, -, hmem2⟩ := generate_all_subsequences_short b hb
  obtain ⟨v, hrun, hval, hmax⟩ := exhaustive_scan L1 L2
  obtain ⟨⟨z, hza, hzb, hz⟩, hup⟩ := lcs_cell_full a b
  have hle : v ≤ lcs_cell a b a.length b.length := by
    rcases hval with h0 | ⟨x, hx1, hx2, hx⟩
    · rw [h0]; exact lcs_cell_nonneg a b
    · rw [← hx]; exact hup x ((hmem1 x).1 hx1) ((hmem2 x).1 hx2)
  have hge : lcs_cell a b a.length b.length ≤ v := by
    rw [← hz]; exact hmax z ((hmem1 z).2 hza) ((hmem2 z).2 hzb)
  have hv : v = lcs_cell a b a.length b.length := le_antisymm hle hge
  simp only [exhaustive_longest_common_subsequence, hL1, hL2, Outcome.returned_bind]
  rw [hrun, hv]

/-- When either string has more than 30 characters the exhaustive search does
not return: the conversion that sizes the enumeration is undefined. -/
theorem exhaustive_long (a b : Str) (h : 30 < a.length ∨ 30 < b.length) :
    exhaustive_longest_common_subsequence a b = .undefined .conversion_out_of_range := by
  simp only [exhaustive_longest_common_subsequence]
  by_cases ha : 30 < a.length
  · rw [generate_all_subsequences_long a ha, Outcome.undefined_bind]
  · have hb : 30 < b.length := by omega
    rw [generate_all_subsequences_eq a, if_pos (by omega), Outcome.returned_bind,
      generate_all_subsequences_long b hb, Outcome.undefined_bind]

/-- The DP score of a string against itself is its length. -/
theorem dp_self (s : Str) :
    dynamicprogramming_longest_common_subsequence s s = .returned (s.length : Int) := by
  rw [dp_eq_lcs_cell]
  obtain ⟨⟨z, hz1, -, hz⟩, hup⟩ := lcs_cell_full s s
  have h1 := hup s (List.Sublist.refl s) (List.Sublist.refl s)
  have h2 := hz1.length_le
  congr 1
  omega

/-! ## The best-match scan -/

/-- One iteration of a best-match scan. -/
theorem best_match_step_best (engine : Str → Str → Outcome Int) (proteins : ProteinVector)
    (q : Str) (score : Nat → Int) (init : Option Nat) (k : Nat) (st : Scan)
    (hk : k < proteins.length) (hs : engine proteins[k].sequence q = .returned (score k))
    (h : Best score init k st) :
    ∃ st1, best_match_step engine proteins q k st = .returned st1 ∧ Best score init (k + 1) st1 := by
  by_cases hgt : score k > st.1
  · refine ⟨(score k, some k), ?_, ?_⟩
    · simp only [best_match_step, vec_at_of_lt proteins k hk, hs, Outcome.returned_bind,
        Outcome.pure_eq]
      rw [if_pos hgt]
    · right
      refine ⟨k, by omega, rfl, rfl, ?_, ?_, ?_⟩
      · rcases h with ⟨h0, -, -⟩ | ⟨i, -, -, -, hpos, -, -⟩
        · simp only; omega
        · simp only; omega
      · intro r hr
        rcases h with ⟨h0, -, hall⟩ | ⟨i, -, -, -, -, -, hall⟩
        · have := hall r hr; simp only; omega
        · have := hall r hr; simp only; omega
      · intro r hr
        by_cases hrk : r = k
        · rw [hrk]
        · rcases h with ⟨h0, -, hall⟩ | ⟨i, -, -, -, -, -, hall⟩
          · have := hall r (by omega); simp only; omega
          · have := hall r (by omega); simp only; omega
  · refine ⟨st, ?_, ?_⟩
    · simp only [best_match_step, vec_at_of_lt proteins k hk, hs, Outcome.returned_bind,
        Outcome.pure_eq]
      rw [if_neg hgt]
    · rcases h with ⟨h0, hinit, hall⟩ | ⟨i, hik, hi, hsc, hpos, hbefore, hall⟩
      · left
        refine ⟨h0, hinit, ?_⟩
        intro r hr
        by_cases hrk : r = k
        · rw [hrk]; omega
        · exact hall r (by omega)
      · right
        refine ⟨i, by omega, hi, hsc, hpos, hbefore, ?_⟩
        intro r hr
        by_cases hrk : r = k
        · rw [hrk]; omega
        · exact hall r (by omega)

/-- A best-match scan over the whole collection runs without fault when the
scoring function does, and ends in a state described by `Best`. -/
theorem best_match_scan_best (engine : Str → Str → Outcome Int) (proteins : ProteinVector)
    (q : Str) (score : Nat → Int) (init : Option Nat)
    (hs : ∀ k (hk : k < proteins.length), engine proteins[k].sequence q = .returned (score k)) :
    ∃ st, for_loop (best_match_step engine proteins q) proteins.length 0 (0, init)
        = .returned st ∧ Best score init proteins.length st := by
  obtain ⟨st, hrun, hst⟩ := for_loop_inv (best_match_step engine proteins q)
    (fun k st => Best score init k st) proteins.length 0 (0, init)
    (Or.inl ⟨rfl, rfl, fun r hr => absurd hr (Nat.not_lt_zero r)⟩)
    (fun k t _ hk ht =>
      best_match_step_best engine proteins q score init k t (by omega) (hs k (by omega)) ht)
  exact ⟨st, hrun, by simpa using hst⟩

theorem dp_score_spec (proteins : ProteinVector) (q : Str) (k : Nat) (hk : k < proteins.length) :
    dynamicprogramming_longest_common_subsequence proteins[k].sequence q
      = .returned (dp_score proteins q k) := by
  simp [dp_score, List.getElem?_eq_getElem hk, dp_eq_lcs_cell]

theorem dp_score_nonneg (proteins : ProteinVector) (q : Str) (k : Nat) :
    0 ≤ dp_score proteins q k := by
  unfold dp_score
  split
  · exact lcs_cell_nonneg _ _
  · exact le_refl _

/-! ## The documented properties -/

/-- C1: on strings of at most 12 characters the DP function and the exhaustive
function both return, and they return the same value. -/
theorem dp_equals_exhaustive_upto_12 (a b : Str) (ha : a.length ≤ 12) (hb : b.length ≤ 12) :
    ∃ v, dynamicprogramming_longest_common_subsequence a b = .returned v ∧
      exhaustive_longest_common_subsequence a b = .returned v :=
  ⟨_, dp_eq_lcs_cell a b, exhaustive_eq_lcs_cell a b (by omega) (by omega)⟩

/-- C1 at the strings MEOW and MOVE. -/
theorem dp_equals_exhaustive_upto_12_witness :
    ("MEOW".toList.length ≤ 12 ∧ "MOVE".toList.length ≤ 12) ∧
    ∃ v, dynamicprogramming_longest_common_subsequence "MEOW".toList "MOVE".toList = .returned v ∧
      exhaustive_longest_common_subsequence "MEOW".toList "MOVE".toList = .returned v :=
  ⟨⟨by decide, by decide⟩,
    dp_equals_exhaustive_upto_12 "MEOW".toList "MOVE".toList (by decide) (by decide)⟩

/-- C2, at the failing input: for the string of 31 letters A against itself the
DP function returns 31, while the exhaustive function returns no value:
`pow(2, 31)` does not fit the `int` that bounds the enumeration, and the
conversion is undefined. -/
theorem exhaustive_differs_from_dp_at_31 :
    exhaustive_longest_common_subsequence (List.replicate 31 'A') (List.replicate 31 'A')
      = .undefined .conversion_out_of_range ∧
    dynamicprogramming_longest_common_subsequence (List.replicate 31 'A') (List.replicate 31 'A')
      = .returned 31 :=
  ⟨exhaustive_long _ _ (Or.inl (by simp)), by simpa using dp_self (List.replicate 31 'A')⟩

/-- C3: the DP function returns the length of a longest common subsequence:
some string of that length is a subsequence of both inputs, and no string that
is a subsequence of both is longer. For MEOW and MOVE it returns 2. -/
theorem dynamicprogramming_lcs_is_longest :
    (∀ a b : Str, ∃ v, dynamicprogramming_longest_common_subsequence a b = .returned v ∧
      (∃ x : Str, x <+ a ∧ x <+ b ∧ (x.length : Int) = v) ∧
      ∀ x : Str, x <+ a → x <+ b → (x.length : Int) ≤ v) ∧
    dynamicprogramming_longest_common_subsequence "MEOW".toList "MOVE".toList = .returned 2 :=
  ⟨fun a b => ⟨_, dp_eq_lcs_cell a b, lcs_cell_full a b⟩, by decide⟩

/-- C4: whenever the two enumerations return, the exhaustive function returns
the greatest length of an entry that occurs in both: no common entry is longer
than the result, the result is the length of a common entry, and it is 0 when
no common entry other than the empty string exists. -/
theorem exhaustive_is_max_common_length (a b : Str) (subs_a subs_b : List Str)
    (ha : generate_all_subsequences a = .returned subs_a)
    (hb : generate_all_subsequences b = .returned subs_b) :
    ∃ v, exhaustive_longest_common_subsequence a b = .returned v ∧
      (∀ x, x ∈ subs_a → x ∈ subs_b → (x.length : Int) ≤ v) ∧
      (∃ x, x ∈ subs_a ∧ x ∈ subs_b ∧ (x.length : Int) = v) ∧
      ((∀ x, x ∈ subs_a → x ∈ subs_b → x = []) → v = 0) := by
  have hla : a.length ≤ 30 := by
    by_contra h
    rw [generate_all_subsequences_long a (by omega)] at ha
    cases ha
  have hlb : b.length ≤ 30 := by
    by_contra h
    rw [generate_all_subsequences_long b (by omega)] at hb
    cases hb
  obtain ⟨L1, hL1, -, hmem1⟩ := generate_all_subsequences_short a hla
  obtain ⟨L2, hL2, -, hmem2⟩ := generate_all_subsequences_short b hlb
  rw [hL1] at ha
  rw [hL2] at hb
  cases ha
  cases hb
  obtain ⟨v, hrun, hval, hmax⟩ := exhaustive_scan subs_a subs_b
  have hnil1 : ([] : Str) ∈ subs_a := (hmem1 []).2 (List.nil_sublist a)
  have hnil2 : ([] : Str) ∈ subs_b := (hmem2 []).2 (List.nil_sublist b)
  have hatt : ∃ x, x ∈ subs_a ∧ x ∈ subs_b ∧ (x.length : Int) = v := by
    rcases hval with h0 | h
    · exact ⟨[], hnil1, hnil2, by rw [h0]; rfl⟩
    · exact h
  refine ⟨v, ?_, hmax, hatt, ?_⟩
  · simp only [exhaustive_longest_common_subsequence, hL1, hL2, Outcome.returned_bind]
    exact hrun
  · intro honly
    obtain ⟨x, hx1, hx2, hx⟩ := hatt
    rw [← hx, honly x hx1 hx2]; rfl

/-- C4 at the strings AB and B. -/
theorem exhaustive_is_max_common_length_witness :
    generate_all_subsequences "AB".toList
      = .returned [[], "A".toList, "B".toList, "AB".toList] ∧
    generate_all_subsequences "B".toList = .returned [[], "B".toList] ∧
    ∃ v, exhaustive_longest_common_subsequence "AB".toList "B".toList = .returned v ∧
      (∀ x, x ∈ [[], "A".toList, "B".toList, "AB".toList] → x ∈ [[], "B".toList] →
        (x.length : Int) ≤ v) ∧
      (∃ x, x ∈ [[], "A".toList, "B".toList, "AB".toList] ∧ x ∈ [[], "B".toList] ∧
        (x.length : Int) = v) ∧
      ((∀ x, x ∈ [[], "A".toList, "B".toList, "AB".toList] → x ∈ [[], "B".toList] → x = []) →
        v = 0) :=
  ⟨by decide, by decide,
    exhaustive_is_max_common_length "AB".toList "B".toList _ _ (by decide) (by decide)⟩

/-- C5: on a non-empty collection the DP best-match function returns the record
at the smallest index whose DP score against the query is the greatest of the
collection: every record scores at most as much, and every earlier record
scores strictly less. On the collection p1 = ABCD, p2 = ABCE, p3 = ABCD with
the query ABCD it returns p1. -/
theorem dynamicprogramming_best_match_first_max :
    (∀ (proteins : ProteinVector) (q : Str), proteins ≠ [] →
      ∃ (i : Nat) (hi : i < proteins.length) (best : Int),
        dynamicprogramming_best_match_scan proteins q = .returned (best, some i) ∧
        dynamicprogramming_best_match proteins q = .returned proteins[i] ∧
        dynamicprogramming_longest_common_subsequence proteins[i].sequence q = .returned best ∧
        ∀ (r : Nat) (hr : r < proteins.length), ∃ v,
          dynamicprogramming_longest_common_subsequence proteins[r].sequence q = .returned v ∧
          v ≤ best ∧ (r < i → v < best)) ∧
    dynamicprogramming_best_match
        [⟨"p1".toList, "ABCD".toList⟩, ⟨"p2".toList, "ABCE".toList⟩, ⟨"p3".toList, "ABCD".toList⟩]
        "ABCD".toList
      = .returned ⟨"p1".toList, "ABCD".toList⟩ := by
  refine ⟨?_, by decide⟩
  intro proteins q hne
  have hpos : 0 < proteins.length := List.length_pos.2 hne
  obtain ⟨st, hrun, hst⟩ := best_match_scan_best dynamicprogramming_longest_common_subsequence
    proteins q (dp_score proteins q) (some 0) (dp_score_spec proteins q)
  rcases hst with ⟨h0, hinit, hall⟩ | ⟨i, hik, hi, hsc, -, hbefore, hall⟩
  · have hst : st = (0, some 0) := Prod.ext h0 hinit
    subst hst
    have hzero : ∀ r, r < proteins.length → dp_score proteins q r = 0 := fun r hr =>
      le_antisymm (hall r hr) (dp_score_nonneg proteins q r)
    refine ⟨0, hpos, 0, hrun, ?_, ?_, ?_⟩
    · simp only [dynamicprogramming_best_match, dynamicprogramming_best_match_scan, hrun,
        Outcome.returned_bind, select]
      exact vec_at_of_lt proteins 0 hpos
    · rw [dp_score_spec proteins q 0 hpos, hzero 0 hpos]
    · intro r hr
      exact ⟨_, dp_score_spec proteins q r hr, by rw [hzero r hr],
        fun h => absurd h (Nat.not_lt_zero r)⟩
  · have hst : st = (dp_score proteins q i, some i) := Prod.ext hsc.symm hi
    subst hst
    refine ⟨i, hik, dp_score proteins q i, hrun, ?_, dp_score_spec proteins q i hik, ?_⟩
    · simp only [dynamicprogramming_best_match, dynamicprogramming_best_match_scan, hrun,
        Outcome.returned_bind, select]
      exact vec_at_of_lt proteins i hik
    · intro r hr
      exact ⟨_, dp_score_spec proteins q r hr, hall r hr, hbefore r⟩

/-- C5 at a collection of one record. -/
theorem dynamicprogramming_best_match_first_max_witness :
    ∃ (i : Nat) (hi : i < [Protein.mk "p1".toList "AB".toList].length) (best : Int),
      dynamicprogramming_best_match_scan [Protein.mk "p1".toList "AB".toList] "B".toList
        = .returned (best, some i) ∧
      dynamicprogramming_best_match [Protein.mk "p1".toList "AB".toList] "B".toList
        = .returned [Protein.mk "p1".toList "AB".toList][i] ∧
      dynamicprogramming_longest_common_subsequence
        [Protein.mk "p1".toList "AB".toList][i].sequence "B".toList = .returned best ∧
      ∀ (r : Nat) (hr : r < [Protein.mk "p1".toList "AB".toList].length), ∃ v,
        dynamicprogramming_longest_common_subsequence
          [Protein.mk "p1".toList "AB".toList][r].sequence "B".toList = .returned v ∧
        v ≤ best ∧ (r < i → v < best) :=
  dynamicprogramming_best_match_first_max.1 [Protein.mk "p1".toList "AB".toList] "B".toList
    (by decide)

/-- C6, at the failing input: on the one-record collection p1 = A with the
query B no record scores above 0, `best_i` is never assigned, and the exhaustive
best-match function indexes the collection with an indeterminate value; the DP
variant, which starts `best_i` at 0, returns the first record. -/
theorem exhaustive_best_match_all_zero :
    exhaustive_longest_common_subsequence "A".toList "B".toList = .returned 0 ∧
    exhaustive_best_match [⟨"p1".toList, "A".toList⟩] "B".toList = .undefined .uninitialised ∧
    dynamicprogramming_best_match [⟨"p1".toList, "A".toList⟩] "B".toList
      = .returned ⟨"p1".toList, "A".toList⟩ := by
  decide

/-- C7, at the failing input: on the empty collection the DP best-match
function evaluates `proteins[0]` and the exhaustive one `proteins[best_i]` with
`best_i` unassigned; both are undefined accesses, and neither function tests
for an empty collection. -/
theorem best_match_empty_collection (q : Str) :
    dynamicprogramming_best_match [] q = .undefined .out_of_bounds ∧
    exhaustive_best_match [] q = .undefined .uninitialised :=
  ⟨rfl, rfl⟩

/-- C8, at the failing input: for the string of 31 letters A the enumeration
does not return, the conversion of `pow(2, 31)` to `int` being undefined; no
list of `2^31` entries holding the empty string and the string itself is
produced. -/
theorem generate_all_subsequences_at_31 :
    generate_all_subsequences (List.replicate 31 'A') = .undefined .conversion_out_of_range ∧
    ¬ ∃ subs, generate_all_subsequences (List.replicate 31 'A') = .returned subs ∧
      subs.length = 2 ^ (List.replicate 31 'A').length ∧ [] ∈ subs ∧
      List.replicate 31 'A' ∈ subs := by
  have h := generate_all_subsequences_long (List.replicate 31 'A') (by simp)
  refine ⟨h, ?_⟩
  rintro ⟨subs, hs, -⟩
  rw [h] at hs
  cases hs

/-- C9, at the failing input: the one-letter string A is a subsequence of the
string of 31 letters A, and the enumeration of that string returns no list in
which it could occur. -/
theorem subsequence_missing_at_31 :
    "A".toList <+ List.replicate 31 'A' ∧
    ¬ ∃ subs, generate_all_subsequences (List.replicate 31 'A') = .returned subs ∧
      "A".toList ∈ subs := by
  refine ⟨by decide, ?_⟩
  rintro ⟨subs, hs, -⟩
  rw [generate_all_subsequences_long (List.replicate 31 'A') (by simp)] at hs
  cases hs

/-- C10: the DP function returns a value between 0 and the length of the
shorter string. -/
theorem dynamicprogramming_lcs_bounds (a b : Str) :
    ∃ v, dynamicprogramming_longest_common_subsequence a b = .returned v ∧
      0 ≤ v ∧ v ≤ ((min a.length b.length : Nat) : Int) := by
  refine ⟨_, dp_eq_lcs_cell a b, lcs_cell_nonneg a b, ?_⟩
  obtain ⟨⟨z, hza, hzb, hz⟩, -⟩ := lcs_cell_full a b
  have h1 := hza.length_le
  have h2 := hzb.length_le
  rw [← hz]
  have : z.length ≤ min a.length b.length := le_min h1 h2
  exact_mod_cast this

/-! ## Further facts about the table, used by the results on its cells -/

/-- Two numbers that are both the length of a longest common subsequence of
the same two strings are equal. -/
theorem lcs_length_unique (a b : Str) (v w : Int)
    (hv1 : ∃ z, z <+ a ∧ z <+ b ∧ (z.length : Int) = v)
    (hv2 : ∀ z, z <+ a → z <+ b → (z.length : Int) ≤ v)
    (hw1 : ∃ z, z <+ a ∧ z <+ b ∧ (z.length : Int) = w)
    (hw2 : ∀ z, z <+ a → z <+ b → (z.length : Int) ≤ w) : v = w := by
  obtain ⟨z, hza, hzb, hz⟩ := hv1
  obtain ⟨y, hya, hyb, hy⟩ := hw1
  have h1 := hw2 z hza hzb
  have h2 := hv2 y hya hyb
  omega

/-- The value of a cell is the value of the last cell of the table built for
the two prefixes. -/
theorem lcs_cell_take (a b : Str) (i j : Nat) (hi : i ≤ a.length) (hj : j ≤ b.length) :
    lcs_cell a b i j = lcs_cell (a.take i) (b.take j) (a.take i).length (b.take j).length := by
  obtain ⟨h1, h2⟩ := lcs_cell_spec a b i j hi hj
  obtain ⟨h3, h4⟩ := lcs_cell_full (a.take i) (b.take j)
  exact lcs_length_unique _ _ _ _ h1 h2 h3 h4

theorem lcs_cell_symm (a b : Str) :
    lcs_cell a b a.length b.length = lcs_cell b a b.length a.length := by
  obtain ⟨⟨z, hza, hzb, hz⟩, h2⟩ := lcs_cell_full a b
  obtain ⟨⟨y, hyb, hya, hy⟩, h4⟩ := lcs_cell_full b a
  have h5 := h4 z hzb hza
  have h6 := h2 y hya hyb
  omega

/-- Going down one row never lowers a cell. -/
theorem lcs_cell_le_down (a b : Str) (i j : Nat) : lcs_cell a b i j ≤ lcs_cell a b (i + 1) j := by
  cases j with
  | zero => simp [lcs_cell_zero_right]
  | succ j => rw [lcs_cell_succ]; exact le_max_left _ _

/-- Going right one column never lowers a cell. -/
theorem lcs_cell_le_right (a b : Str) (i j : Nat) : lcs_cell a b i j ≤ lcs_cell a b i (j + 1) := by
  cases i with
  | zero => simp [lcs_cell_zero_left]
  | succ i => rw [lcs_cell_succ]; exact le_max_of_le_right (le_max_left _ _)

/-- Going right one column raises a cell by at most one. -/
theorem lcs_cell_right_le_succ (a b : Str) (j : Nat) :
    ∀ i, lcs_cell a b i (j + 1) ≤ lcs_cell a b i j + 1
  | 0 => by simp [lcs_cell_zero_left]
  | i + 1 => by
    have ih := lcs_cell_right_le_succ a b j i
    have hd := lcs_cell_le_down a b i j
    rw [lcs_cell_succ]
    refine max_le (by omega) (max_le (by omega) ?_)
    split <;> omega

/-- Going down one row raises a cell by at most one. -/
theorem lcs_cell_down_le_succ (a b : Str) (i : Nat) :
    ∀ j, lcs_cell a b (i + 1) j ≤ lcs_cell a b i j + 1
  | 0 => by simp [lcs_cell_zero_right]
  | j + 1 => by
    have ih := lcs_cell_down_le_succ a b i j
    have hr := lcs_cell_le_right a b i j
    rw [lcs_cell_succ]
    refine max_le (by omega) (max_le (by omega) ?_)
    split <;> omega

/-- A cell is at most one above its diagonal neighbour. -/
theorem lcs_cell_diag_le_succ (a b : Str) (i j : Nat) :
    lcs_cell a b (i + 1) (j + 1) ≤ lcs_cell a b i j + 1 := by
  have h1 := lcs_cell_right_le_succ a b j i
  have h2 := lcs_cell_down_le_succ a b i j
  rw [lcs_cell_succ]
  refine max_le h1 (max_le h2 ?_)
  split <;> omega

/-- The reads of the filled table: every cell of the table can be read and
holds its `lcs_cell` value. -/
theorem dp_table_reads (a b : Str) :
    ∃ D, dp_table a b = .returned D ∧
      ∀ i j, i ≤ a.length → j ≤ b.length → D.read i j = .returned (lcs_cell a b i j) := by
  obtain ⟨D, hrun, hr, hc, hcell⟩ := dp_table_filled a b
  exact ⟨D, hrun, fun i j hi hj =>
    Table.read_of_cell D i j _ (by omega) (by omega) (hcell i j hi hj)⟩

/-- The three-way maximum of the code and the two-case recurrence of the
specification define the same function. -/
theorem lcs_cell_eq_spec (a b : Str) : ∀ i j, lcs_cell a b i j = spec_lcs_table a b i j := by
  intro i
  induction i with
  | zero => intro j; rw [lcs_cell_zero_left, spec_lcs_table]
  | succ i ihi =>
    intro j
    induction j with
    | zero => rw [lcs_cell_zero_right, spec_lcs_table]
    | succ j ihj =>
      have h1 := lcs_cell_right_le_succ a b j i
      have h2 := lcs_cell_down_le_succ a b i j
      have h3 := lcs_cell_le_down a b i j
      rw [spec_lcs_table, lcs_cell_succ, ← ihi j, ← ihi (j + 1), ← ihj]
      split
      · rw [max_eq_right (by omega : lcs_cell a b (i + 1) j ≤ lcs_cell a b i j + 1),
          max_eq_right h1]
      · have h4 : lcs_cell a b i j ≤ lcs_cell a b (i + 1) j := h3
        rw [max_eq_left h4]

/-- C11: the DP function returns the same value when its arguments are
exchanged. -/
theorem dynamicprogramming_lcs_symmetric (a b : Str) :
    ∃ v, dynamicprogramming_longest_common_subsequence a b = .returned v ∧
      dynamicprogramming_longest_common_subsequence b a = .returned v :=
  ⟨_, dp_eq_lcs_cell a b, by rw [dp_eq_lcs_cell, lcs_cell_symm]⟩

/-- C12: the DP function applied to a string and itself returns the length of
the string. -/
theorem dynamicprogramming_lcs_identity (s : Str) :
    dynamicprogramming_longest_common_subsequence s s = .returned (s.length : Int) :=
  dp_self s

/-- C13: the DP function applied to the empty string and any string returns 0. -/
theorem dynamicprogramming_lcs_empty_left (x : Str) :
    dynamicprogramming_longest_common_subsequence [] x = .returned 0 := by
  rw [dp_eq_lcs_cell]
  simp [lcs_cell_zero_left]

/-- C14: every cell of the filled table outside row 0 and column 0 holds the
three-way maximum the code assigns, and that value satisfies the recurrence of
the specification: the diagonal neighbour plus one when the two characters are
equal, the greater of the upper and the left neighbour otherwise. Hence the
filled table is the table defined by the specification's recurrence. -/
theorem dp_table_satisfies_spec_recurrence (a b : Str) :
    ∃ D, dp_table a b = .returned D ∧
      (∀ i j, 1 ≤ i → i ≤ a.length → 1 ≤ j → j ≤ b.length →
        ∃ v up left diag, D.read i j = .returned v ∧ D.read (i - 1) j = .returned up ∧
          D.read i (j - 1) = .returned left ∧ D.read (i - 1) (j - 1) = .returned diag ∧
          v = max up (max left (if a[i - 1]? = b[j - 1]? then diag + 1 else diag)) ∧
          (a[i - 1]? = b[j - 1]? → v = diag + 1) ∧
          (a[i - 1]? ≠ b[j - 1]? → v = max up left)) ∧
      (∀ i j, i ≤ a.length → j ≤ b.length → D.read i j = .returned (spec_lcs_table a b i j)) := by
  obtain ⟨D, hrun, hread⟩ := dp_table_reads a b
  refine ⟨D, hrun, ?_, fun i j hi hj => by rw [hread i j hi hj, lcs_cell_eq_spec]⟩
  intro i j hi1 hi hj1 hj
  obtain ⟨i, rfl⟩ : ∃ k, i = k + 1 := ⟨i - 1, by omega⟩
  obtain ⟨j, rfl⟩ : ∃ k, j = k + 1 := ⟨j - 1, by omega⟩
  simp only [Nat.add_sub_cancel]
  refine ⟨_, _, _, _, hread (i + 1) (j + 1) hi hj, hread i (j + 1) (by omega) hj,
    hread (i + 1) j hi (by omega), hread i j (by omega) (by omega), lcs_cell_succ a b i j, ?_, ?_⟩
  · intro heq
    rw [lcs_cell_eq_spec a b (i + 1) (j + 1), spec_lcs_table, if_pos heq, lcs_cell_eq_spec]
  · intro hne
    rw [lcs_cell_eq_spec a b (i + 1) (j + 1), spec_lcs_table, if_neg hne, lcs_cell_eq_spec,
      lcs_cell_eq_spec]

/-- C15: after the table is filled, cell `(i, j)` holds the value the DP
function returns for the first `i` characters of `a` and the first `j`
characters of `b`. -/
theorem dp_table_cell_is_prefix_lcs (a b : Str) :
    ∃ D, dp_table a b = .returned D ∧
      ∀ i j, i ≤ a.length → j ≤ b.length →
        ∃ v, D.read i j = .returned v ∧
          dynamicprogramming_longest_common_subsequence (a.take i) (b.take j) = .returned v := by
  obtain ⟨D, hrun, hread⟩ := dp_table_reads a b
  refine ⟨D, hrun, fun i j hi hj => ⟨_, hread i j hi hj, ?_⟩⟩
  rw [dp_eq_lcs_cell, lcs_cell_take a b i j hi hj]

/-- A read of a table that was declared and not yet assigned is a fault,
whatever the indices. -/
theorem Table.read_alloc (rows cols i j : Nat) :
    ∃ f, (Table.alloc rows cols).read i j = .undefined f := by
  by_cases h : i < rows ∧ j < cols
  · exact ⟨.uninitialised, by simp [Table.read, Table.alloc, h]⟩
  · exact ⟨.out_of_bounds, by simp only [Table.read, Table.alloc]; rw [if_neg h]⟩

/-- C17: a call of the DP function makes no access outside the table or the
strings and reads no cell before it is assigned: the three loops and the final
read `D[n][m]` run without a fault, on a table of `len(a)+1` rows and `len(b)+1`
columns, also when `a` or `b` is empty. (Every access of the embedding is
checked, and a table starts with no cell assigned: a read before a write, or
an index outside the table, would end the run with a fault.) -/
theorem dynamicprogramming_lcs_accesses_safe :
    (∀ a b : Str, ∃ D v, dp_table a b = .returned D ∧ D.rows = a.length + 1 ∧
      D.cols = b.length + 1 ∧ dynamicprogramming_longest_common_subsequence a b = .returned v) ∧
    (∀ b : Str, dynamicprogramming_longest_common_subsequence [] b = .returned 0) ∧
    (∀ a : Str, dynamicprogramming_longest_common_subsequence a [] = .returned 0) ∧
    (∀ rows cols i j, ∃ f, (Table.alloc rows cols).read i j = .undefined f) := by
  refine ⟨?_, ?_, ?_, Table.read_alloc⟩
  · intro a b
    obtain ⟨D, hrun, hr, hc, -⟩ := dp_table_filled a b
    exact ⟨D, _, hrun, hr, hc, dp_eq_lcs_cell a b⟩
  · intro b
    rw [dp_eq_lcs_cell]; simp [lcs_cell_zero_left]
  · intro a
    rw [dp_eq_lcs_cell]; simp [lcs_cell_zero_right]

/-- The score of every record under the exhaustive engine is its DP score when
the sequences and the query have at most 30 characters. -/
theorem exhaustive_score_spec (proteins : ProteinVector) (q : Str)
    (hlen : ∀ p, p ∈ proteins → p.sequence.length ≤ 30) (hq : q.length ≤ 30)
    (k : Nat) (hk : k < proteins.length) :
    exhaustive_longest_common_subsequence proteins[k].sequence q
      = .returned (dp_score proteins q k) := by
  rw [exhaustive_eq_lcs_cell _ _ (hlen _ (List.getElem_mem hk)) hq]
  simp [dp_score, List.getElem?_eq_getElem hk]

/-- C18: on a non-empty collection whose sequences have at most 12 characters,
with a query of at most 12 characters, when some record has a positive score
against the query the exhaustive and the DP best-match functions end their scan
with the same `best_score` and the same index `best_i`, and return the record
at that index. -/
theorem best_match_variants_agree (proteins : ProteinVector) (q : Str)
    (hne : proteins ≠ []) (hlen : ∀ p, p ∈ proteins → p.sequence.length ≤ 12)
    (hq : q.length ≤ 12)
    (hpos : ∃ p v, p ∈ proteins ∧
      dynamicprogramming_longest_common_subsequence p.sequence q = .returned v ∧ 0 < v) :
    ∃ (i : Nat) (hi : i < proteins.length) (best : Int),
      exhaustive_best_match_scan proteins q = .returned (best, some i) ∧
      dynamicprogramming_best_match_scan proteins q = .returned (best, some i) ∧
      exhaustive_best_match proteins q = .returned proteins[i] ∧
      dynamicprogramming_best_match proteins q = .returned proteins[i] := by
  have _ := hne
  obtain ⟨p, v, hp, hv, hvpos⟩ := hpos
  obtain ⟨r, hr, hpr⟩ := List.getElem_of_mem hp
  have hscore : 0 < dp_score proteins q r := by
    have h := dp_score_spec proteins q r hr
    rw [hpr, hv] at h
    cases h
    exact hvpos
  obtain ⟨st1, hrun1, hst1⟩ := best_match_scan_best exhaustive_longest_common_subsequence
    proteins q (dp_score proteins q) none
    (exhaustive_score_spec proteins q (fun p hp => by have := hlen p hp; omega) (by omega))
  obtain ⟨st2, hrun2, hst2⟩ := best_match_scan_best dynamicprogramming_longest_common_subsequence
    proteins q (dp_score proteins q) (some 0) (dp_score_spec proteins q)
  rcases hst1 with ⟨-, -, hall⟩ | ⟨i1, hi1, hb1, hs1, -, hbefore1, hall1⟩
  · have := hall r hr; omega
  rcases hst2 with ⟨-, -, hall⟩ | ⟨i2, hi2, hb2, hs2, -, hbefore2, hall2⟩
  · have := hall r hr; omega
  have hidx : i1 = i2 := by
    rcases Nat.lt_trichotomy i1 i2 with h | h | h
    · have h3 := hbefore2 i1 h
      have h4 := hall1 i2 hi2
      omega
    · exact h
    · have h3 := hbefore1 i2 h
      have h4 := hall2 i1 hi1
      omega
  subst hidx
  have e1 : st1 = (dp_score proteins q i1, some i1) := Prod.ext hs1.symm hb1
  have e2 : st2 = (dp_score proteins q i1, some i1) := Prod.ext hs2.symm hb2
  subst e1
  subst e2
  refine ⟨i1, hi1, dp_score proteins q i1, hrun1, hrun2, ?_, ?_⟩
  · simp only [exhaustive_best_match, exhaustive_best_match_scan, hrun1, Outcome.returned_bind,
      select]
    exact vec_at_of_lt proteins i1 hi1
  · simp only [dynamicprogramming_best_match, dynamicprogramming_best_match_scan, hrun2,
      Outcome.returned_bind, select]
    exact vec_at_of_lt proteins i1 hi1

/-- C20: in the filled table, around every cell outside row 0 and column 0,
the values do not decrease to the right or downwards, and the cell is at most
one above its diagonal neighbour. -/
theorem dp_table_monotone_unit_steps (a b : Str) :
    ∃ D, dp_table a b = .returned D ∧
      ∀ i j, 1 ≤ i → i ≤ a.length → 1 ≤ j → j ≤ b.length →
        ∃ v up left diag, D.read i j = .returned v ∧ D.read (i - 1) j = .returned up ∧
          D.read i (j - 1) = .returned left ∧ D.read (i - 1) (j - 1) = .returned diag ∧
          diag ≤ up ∧ up ≤ v ∧ diag ≤ left ∧ left ≤ v ∧ v ≤ diag + 1 := by
  obtain ⟨D, hrun, hread⟩ := dp_table_reads a b
  refine ⟨D, hrun, ?_⟩
  intro i j hi1 hi hj1 hj
  obtain ⟨i, rfl⟩ : ∃ k, i = k + 1 := ⟨i - 1, by omega⟩
  obtain ⟨j, rfl⟩ : ∃ k, j = k + 1 := ⟨j - 1, by omega⟩
  simp only [Nat.add_sub_cancel]
  exact ⟨_, _, _, _, hread (i + 1) (j + 1) hi hj, hread i (j + 1) (by omega) hj,
    hread (i + 1) j hi (by omega), hread i j (by omega) (by omega),
    lcs_cell_le_right a b i j, lcs_cell_le_down a b i (j + 1), lcs_cell_le_down a b i j,
    lcs_cell_le_right a b (i + 1) j, lcs_cell_diag_le_succ a b i j⟩

/-! ## Further facts about the enumeration -/

/-- The mask of a string extended by one character: the bit after the last one
of the string decides whether the new character is appended. -/
theorem masked_append_singleton (c : Char) : ∀ (s : Str) (bits : Nat),
    masked (s ++ [c]) bits
      = masked s bits ++ (if bits / 2 ^ s.length % 2 = 1 then [c] else [])
  | [], bits => by simp [masked]
  | x :: xs, bits => by
    have ih := masked_append_singleton c xs (bits / 2)
    have hdiv : bits / 2 / 2 ^ xs.length = bits / 2 ^ (xs.length + 1) := by
      rw [Nat.div_div_eq_div_mul, pow_succ, Nat.mul_comm]
    rw [hdiv] at ih
    simp only [List.cons_append, masked, List.length_cons]
    split <;> simp [ih]

/-- Only the bits below the length of the string matter. -/
theorem masked_add_pow : ∀ (s : Str) (b : Nat), masked s (2 ^ s.length + b) = masked s b
  | [], b => by simp [masked]
  | x :: xs, b => by
    have ih := masked_add_pow xs (b / 2)
    have hmod : (2 ^ (xs.length + 1) + b) % 2 = b % 2 := by
      rw [pow_succ]; omega
    have hdiv : (2 ^ (xs.length + 1) + b) / 2 = 2 ^ xs.length + b / 2 := by
      rw [pow_succ]; omega
    simp only [masked, List.length_cons, hmod, hdiv, ih]

/-- The recursion on the string selects the characters at the set bits. -/
theorem masked_eq_chars_at_set_bits : ∀ (s : Str) (mask : Nat),
    masked s mask = chars_at_set_bits s mask
  | [], mask => by simp [masked, chars_at_set_bits]
  | x :: xs, mask => by
    have ih := masked_eq_chars_at_set_bits xs (mask / 2)
    simp only [chars_at_set_bits] at ih ⊢
    simp only [List.length_cons, List.range_succ_eq_map, List.filterMap_cons, List.filterMap_map,
      Nat.testBit_zero, masked, ih]
    have hfun : ((fun j => if mask.testBit j then (x :: xs)[j]? else none) ∘ Nat.succ)
        = fun j => if (mask / 2).testBit j then xs[j]? else none := by
      funext j
      simp [Nat.testBit_succ]
    rw [hfun]
    by_cases hbit : mask % 2 = 1
    · simp [hbit]
    · simp [hbit]

/-- On a string of at most 30 characters, the entry at index `mask` of the
enumeration is the string of the characters at the set bits of `mask`. -/
theorem generate_all_subsequences_entry (s : Str) (mask : Nat) (h : s.length ≤ 30)
    (hmask : mask < 2 ^ s.length) :
    ∃ subs, generate_all_subsequences s = .returned subs ∧
      subs[mask]? = some (chars_at_set_bits s mask) := by
  refine ⟨_, by rw [generate_all_subsequences_eq, if_pos h], ?_⟩
  rw [List.getElem?_map, List.getElem?_range hmask, ← masked_eq_chars_at_set_bits]
  rfl

/-- C16, at the failing input: for the string of 31 letters A the mask 0 is
below `2^31`, and the enumeration returns no list, hence no entry at index 0
that would be the string selected by the mask. -/
theorem generate_all_subsequences_no_entry_at_31 :
    0 < 2 ^ (List.replicate 31 'A').length ∧
    ¬ ∃ subs, generate_all_subsequences (List.replicate 31 'A') = .returned subs ∧
      subs[0]? = some (chars_at_set_bits (List.replicate 31 'A') 0) := by
  refine ⟨by simp, ?_⟩
  rintro ⟨subs, hs, -⟩
  rw [generate_all_subsequences_long (List.replicate 31 'A') (by simp)] at hs
  cases hs

/-- C19: when `2^(len(s)+1)` fits an `int`, the enumeration of `s` followed by
the character `c` is the enumeration of `s` followed by the same list with `c`
appended to each entry. -/
theorem generate_all_subsequences_append (s : Str) (c : Char)
    (hfit : ((2 ^ (s.length + 1) : Nat) : Int) ≤ INT_MAX) :
    ∃ subs, generate_all_subsequences s = .returned subs ∧
      generate_all_subsequences (s ++ [c])
        = .returned (subs ++ subs.map (fun x => x ++ [c])) := by
  have hlen : s.length + 1 ≤ 30 := by
    by_contra hgt
    have hpow : (2 : Nat) ^ 31 ≤ 2 ^ (s.length + 1) := Nat.pow_le_pow_right (by decide) (by omega)
    norm_num at hpow
    simp only [INT_MAX] at hfit
    omega
  have h1 : s.length ≤ 30 := by omega
  have h2 : (s ++ [c]).length ≤ 30 := by
    rw [List.length_append, List.length_singleton]; exact hlen
  refine ⟨_, by rw [generate_all_subsequences_eq, if_pos h1], ?_⟩
  rw [generate_all_subsequences_eq, if_pos h2]
  congr 1
  have hsplit : (2 : Nat) ^ (s ++ [c]).length = 2 ^ s.length + 2 ^ s.length := by
    simp only [List.length_append, List.length_singleton, pow_succ]; omega
  rw [hsplit, List.range_add, List.map_append, List.map_map, List.map_map]
  congr 1
  · apply List.map_congr_left
    intro bits hbits
    have hlt : bits < 2 ^ s.length := List.mem_range.1 hbits
    rw [masked_append_singleton, Nat.div_eq_of_lt hlt]
    simp
  · apply List.map_congr_left
    intro b hb
    have hlt : b < 2 ^ s.length := List.mem_range.1 hb
    have hdiv : (2 ^ s.length + b) / 2 ^ s.length = 1 := by
      rw [Nat.add_comm, Nat.add_div_right _ (Nat.pos_pow_of_pos _ (by decide)),
        Nat.div_eq_of_lt hlt]
    simp only [Function.comp, masked_append_singleton, hdiv, masked_add_pow]
    simp

/-- C19 at the string AB and the character C. -/
theorem generate_all_subsequences_append_witness :
    ((2 ^ ("AB".toList.length + 1) : Nat) : Int) ≤ INT_MAX ∧
    ∃ subs, generate_all_subsequences "AB".toList = .returned subs ∧
      generate_all_subsequences ("AB".toList ++ ['C'])
        = .returned (subs ++ subs.map (fun x => x ++ ['C'])) :=
  ⟨by decide, generate_all_subsequences_append "AB".toList 'C' (by decide)⟩

/-- C18 at the collection p1 = ABCD, p2 = ABCE, p3 = ABCD with the query ABCD. -/
theorem best_match_variants_agree_witness :
    ∃ (i : Nat) (hi : i < [Protein.mk "p1".toList "ABCD".toList,
        Protein.mk "p2".toList "ABCE".toList, Protein.mk "p3".toList "ABCD".toList].length)
      (best : Int),
      exhaustive_best_match_scan [Protein.mk "p1".toList "ABCD".toList,
        Protein.mk "p2".toList "ABCE".toList, Protein.mk "p3".toList "ABCD".toList] "ABCD".toList
        = .returned (best, some i) ∧
      dynamicprogramming_best_match_scan [Protein.mk "p1".toList "ABCD".toList,
        Protein.mk "p2".toList "ABCE".toList, Protein.mk "p3".toList "ABCD".toList] "ABCD".toList
        = .returned (best, some i) ∧
      exhaustive_best_match [Protein.mk "p1".toList "ABCD".toList,
        Protein.mk "p2".toList "ABCE".toList, Protein.mk "p3".toList "ABCD".toList] "ABCD".toList
        = .returned [Protein.mk "p1".toList "ABCD".toList,
          Protein.mk "p2".toList "ABCE".toList, Protein.mk "p3".toList "ABCD".toList][i] ∧
      dynamicprogramming_best_match [Protein.mk "p1".toList "ABCD".toList,
        Protein.mk "p2".toList "ABCE".toList, Protein.mk "p3".toList "ABCD".toList] "ABCD".toList
        = .returned [Protein.mk "p1".toList "ABCD".toList,
          Protein.mk "p2".toList "ABCE".toList, Protein.mk "p3".toList "ABCD".toList][i] :=
  best_match_variants_agree _ "ABCD".toList (by decide) (by decide) (by decide)
    ⟨Protein.mk "p1".toList "ABCD".toList, 4, by decide, by decide, by decide⟩

end Project3
